import Mathlib

/-!
# Verification of the PVPC backend scheduler

Shallow embedding of the schedule-selection algorithm
(`src/backend/src/services/scheduler.rs`), the regeneration pipeline
(`src/backend/src/api/rules.rs`, `src/backend/src/background_tasks.rs`)
and the status-update surface (`src/backend/src/api/schedule.rs`).

Conventions of the embedding:
* `f64` prices are modeled as `ℚ` (the claims under study do not concern
  rounding; a separate partiality-explicit model `Option ℚ`, where `none`
  plays the role of NaN, is used for the panic-freedom claim);
* `NaiveTime` values are modeled as seconds-of-day (`Nat`);
* `NaiveDate` values are modeled as days counted from a Monday epoch, so
  `date % 7 = 0` is a Monday, matching chrono's weekday-to-bit mapping;
* `i32` fields are modeled as `Int`, and Rust's `as usize` cast is modeled
  by `usize_of_i32` (reduction modulo `2^64`);
* Rust's stable `Vec::sort_by` with a `partial_cmp(..).unwrap()` comparator
  is modeled, on the ℚ side, by the stable `List.insertionSort` with the
  corresponding `≤` relation (a stable sort by a total preorder is unique,
  so any stable sort models it); the partiality-explicit model `fsort`
  makes each comparator call fallible exactly as `unwrap` is.
-/

set_option maxRecDepth 8000

namespace PvpcBackend

attribute [local semireducible] Rat.add Rat.mul Rat.inv Rat.sub

/-- `shared::HourlyPrice`, generic in the price representation so that both
the ℚ model and the `Option ℚ` (NaN-explicit) model share one definition. -/
structure HourlyPriceP (π : Type) where
  hour : Nat
  price : π
  deriving Repr, DecidableEq

/-- `shared::HourlyPrice` with `f64` modeled as `ℚ`. -/
abbrev HourlyPrice := HourlyPriceP ℚ

/-- `scheduler::OptimalHours`, generic in the price representation. -/
structure OptimalHoursP (π : Type) where
  hours : List Nat
  total_price : π
  deriving Repr, DecidableEq

abbrev OptimalHours := OptimalHoursP ℚ

/-- Rust's `as usize` on an `i32`: sign-extend and reinterpret, i.e. reduce
modulo `2^64`. For `0 ≤ n < 2^64` this is just `n.toNat`. -/
def usize_of_i32 (n : Int) : Nat := (n % (2 : Int) ^ 64).toNat

/-- The hour-membership predicate of `filter_by_time_window`
(`scheduler.rs:39-74`), written out per arm of the source `match`. -/
def in_time_window (start_h end_h : Option Nat) (h : Nat) : Bool :=
  match start_h, end_h with
  | none, none => true
  | some s, some e => if s ≤ e then s ≤ h && h < e else s ≤ h || h < e
  | some s, none => s ≤ h
  | none, some e => h < e

/-- `scheduler::filter_by_time_window`. The source receives
`Option<NaiveTime>` bounds and uses only their `.hour()` component, so the
model takes the bounds as `Option Nat` hours directly. -/
def filter_by_time_window {π : Type} (prices : List (HourlyPriceP π))
    (start_h end_h : Option Nat) : List (HourlyPriceP π) :=
  match start_h, end_h with
  | none, none => prices
  | some s, some e =>
      prices.filter (fun p =>
        if s ≤ e then s ≤ p.hour && p.hour < e else s ≤ p.hour || p.hour < e)
  | some s, none => prices.filter (fun p => s ≤ p.hour)
  | none, some e => prices.filter (fun p => p.hour < e)

/-- The comparator of `calculate_scattered_hours`:
`a.price.partial_cmp(&b.price).unwrap()` as the total preorder it induces on
non-NaN values. -/
def priceLE (a b : HourlyPrice) : Prop := a.price ≤ b.price

instance : DecidableRel priceLE := fun a b =>
  inferInstanceAs (Decidable (a.price ≤ b.price))

instance : IsTotal HourlyPrice priceLE := ⟨fun a b => le_total a.price b.price⟩

instance : IsTrans HourlyPrice priceLE := ⟨fun _ _ _ h h' => le_trans h h'⟩

/-- `scheduler::calculate_scattered_hours` (scheduler.rs:77-88). -/
def calculate_scattered_hours (prices : List HourlyPrice) (max_hours : Nat) :
    OptimalHours :=
  let sorted_prices := List.insertionSort priceLE prices
  let selected := sorted_prices.take max_hours
  let total_price := (selected.map (·.price)).sum
  let hours := List.insertionSort (· ≤ ·) (selected.map (·.hour))
  ⟨hours, total_price⟩

/-- The `price_map` HashMap of `calculate_continuous_blocks`: on duplicate
hours the last inserted entry wins; the source indexes it only at hours
present in `prices`, where the default is never used. -/
def price_map (prices : List HourlyPrice) (h : Nat) : ℚ :=
  ((prices.reverse.find? (fun p => p.hour == h)).map (·.price)).getD 0

/-- Inner loop of the block enumeration (scheduler.rs:118-137): extend the
current block `block_hours` (nonempty by construction; `last().unwrap()` is
modeled by `getLastD`) over the remaining sorted hours, recording every
extension whose length reaches `min_continuous` together with its average
price, and stopping at the first non-consecutive hour. -/
def build_blocks (pm : Nat → ℚ) (min_continuous : Nat) :
    List Nat → List Nat → ℚ → List (List Nat × ℚ)
  | [], _, _ => []
  | curr :: rest, block_hours, block_price =>
      let prev := block_hours.getLastD 0
      if curr == prev + 1 || (prev == 23 && curr == 0) then
        let bh := block_hours ++ [curr]
        let bp := block_price + pm curr
        (if min_continuous ≤ bh.length then [(bh, bp / (bh.length : ℚ))] else [])
          ++ build_blocks pm min_continuous rest bh bp
      else []

/-- Outer loop of the block enumeration (scheduler.rs:114-138): one seed per
start offset of the sorted available hours. -/
def all_blocks (pm : Nat → ℚ) (min_continuous : Nat) :
    List Nat → List (List Nat × ℚ)
  | [] => []
  | h :: rest =>
      build_blocks pm min_continuous rest [h] (pm h)
        ++ all_blocks pm min_continuous rest

/-- Comparator of the block sort (scheduler.rs:148):
`a.1.partial_cmp(&b.1).unwrap()` on average prices. -/
def avgLE (a b : List Nat × ℚ) : Prop := a.2 ≤ b.2

instance : DecidableRel avgLE := fun a b =>
  inferInstanceAs (Decidable (a.2 ≤ b.2))

instance : IsTotal (List Nat × ℚ) avgLE := ⟨fun a b => le_total a.2 b.2⟩

instance : IsTrans (List Nat × ℚ) avgLE := ⟨fun _ _ _ h h' => le_trans h h'⟩

/-- Greedy block selection (scheduler.rs:151-168). -/
def select_blocks (pm : Nat → ℚ) (max_hours : Nat) :
    List (List Nat × ℚ) → List Nat → ℚ → List Nat × ℚ
  | [], selected_hours, total_price => (selected_hours, total_price)
  | (block_hours, _) :: rest, selected_hours, total_price =>
      let overlaps := block_hours.any (fun h => selected_hours.contains h)
      if !overlaps && decide (selected_hours.length + block_hours.length ≤ max_hours) then
        let total_price' := total_price + (block_hours.map pm).sum
        let selected_hours' := selected_hours ++ block_hours
        if max_hours ≤ selected_hours'.length then (selected_hours', total_price')
        else select_blocks pm max_hours rest selected_hours' total_price'
      else select_blocks pm max_hours rest selected_hours total_price

/-- `scheduler::calculate_continuous_blocks` (scheduler.rs:91-176). -/
def calculate_continuous_blocks (prices : List HourlyPrice)
    (max_hours min_continuous : Nat) : OptimalHours :=
  if prices.length < min_continuous then ⟨[], 0⟩
  else
    let pm := price_map prices
    let available_hours := List.insertionSort (· ≤ ·) (prices.map (·.hour))
    let blocks := all_blocks pm min_continuous available_hours
    if blocks.isEmpty then ⟨[], 0⟩
    else
      let sorted_blocks := List.insertionSort avgLE blocks
      let st := select_blocks pm max_hours sorted_blocks [] 0
      ⟨List.insertionSort (· ≤ ·) st.1, st.2⟩

/-- `scheduler::calculate_optimal_hours` (scheduler.rs:12-36). -/
def calculate_optimal_hours (prices : List HourlyPrice)
    (max_hours min_continuous_hours : Int)
    (time_window_start time_window_end : Option Nat) : OptimalHours :=
  let filtered_prices := filter_by_time_window prices time_window_start time_window_end
  if filtered_prices.isEmpty then ⟨[], 0⟩
  else if min_continuous_hours ≤ 1 then
    calculate_scattered_hours filtered_prices (usize_of_i32 max_hours)
  else
    calculate_continuous_blocks filtered_prices (usize_of_i32 max_hours)
      (usize_of_i32 min_continuous_hours)

/-- The spec's §8 price scenario: 24 hourly prices, hours 0-5 cost 0.05 and
all others cost 0.20. -/
def scenario_prices : List HourlyPrice :=
  (List.range 24).map (fun h => ⟨h, if h ≤ 5 then 1/20 else 1/5⟩)

/-! ## State model: scheduled actions, rules, regeneration, expiry sweep -/

/-- A `NaiveTime`, as seconds of day. -/
abbrev Time := Nat

/-- `NaiveTime::from_hms_opt(h, m, s).unwrap()`. -/
def mkTime (h m s : Nat) : Time := h * 3600 + m * 60 + s

/-- `db::models::ScheduledAction`, restricted to the columns the claims
concern. `scheduled_date` counts days from a Monday epoch; `status` holds
the literal strings the SQL uses. -/
structure ScheduledAction where
  rule_id : Nat
  scheduled_date : Nat
  start_time : Time
  end_time : Time
  price_per_kwh : Option ℚ
  status : String
  deriving Repr, DecidableEq

/-- `db::models::Rule`, restricted to the columns regeneration uses. -/
structure Rule where
  id : Nat
  max_hours : Int
  time_window_start : Option Nat
  time_window_end : Option Nat
  min_continuous_hours : Int
  days_of_week : Int
  is_enabled : Bool
  deriving Repr, DecidableEq

/-- The weekday→bit `match` repeated at rules.rs:501-509,
background_tasks.rs:225-233 and schedule.rs:177-185. With dates counted
from a Monday epoch, chrono's weekday of `date` is `date % 7`
(`0` = Monday). -/
def day_bit (date : Nat) : Int :=
  match date % 7 with
  | 0 => 1
  | 1 => 2
  | 2 => 4
  | 3 => 8
  | 4 => 16
  | 5 => 32
  | _ => 64

/-- The `ON CONFLICT (rule_id, scheduled_date, start_time)` unique key of
`scheduled_actions`. -/
def same_key (a b : ScheduledAction) : Bool :=
  a.rule_id == b.rule_id && a.scheduled_date == b.scheduled_date
    && a.start_time == b.start_time

/-- `INSERT ... ON CONFLICT (rule_id, scheduled_date, start_time) DO
NOTHING`: the table and whether `rows_affected > 0`. -/
def insert_scheduled_action (db : List ScheduledAction)
    (row : ScheduledAction) : List ScheduledAction × Bool :=
  if db.any (fun a => same_key a row) then (db, false) else (db ++ [row], true)

/-- End time computed by rules.rs:536-542 (and schedule.rs:203-209):
`23:59:59` for hour 23, `hour+1:00:00` otherwise. -/
def rules_end_time (hour : Nat) : Time :=
  if hour == 23 then mkTime 23 59 59 else mkTime (hour + 1) 0 0

/-- End time computed by background_tasks.rs:251-254:
`(hour + 1) % 24:00:00`, i.e. `00:00:00` for hour 23. -/
def background_end_time (hour : Nat) : Time := mkTime ((hour + 1) % 24) 0 0

/-- `prices.prices.iter().find(|p| p.hour == hour).map(|p| p.price)`. -/
def price_at (prices : List HourlyPrice) (hour : Nat) : Option ℚ :=
  (prices.find? (fun p => p.hour == hour)).map (·.price)

/-- The row INSERTed by `generate_schedules_for_rule_and_date`
(rules.rs:547-560). -/
def rules_row (rule : Rule) (prices : List HourlyPrice) (date : Nat)
    (hour : Nat) : ScheduledAction :=
  ⟨rule.id, date, mkTime hour 0 0, rules_end_time hour,
    price_at prices hour, "pending"⟩

/-- The `if start_time <= min { continue; }` test of rules.rs:530-534. -/
def gen_skip (min_time : Option Time) (hour : Nat) : Bool :=
  match min_time with
  | some m => decide (mkTime hour 0 0 ≤ m)
  | none => false

/-- The per-hour insert loop of `generate_schedules_for_rule_and_date`
(rules.rs:526-565), threading the table and `created_count`. -/
def gen_loop (rule : Rule) (prices : List HourlyPrice) (date : Nat)
    (min_time : Option Time) :
    List Nat → List ScheduledAction → Nat → List ScheduledAction × Nat
  | [], db, count => (db, count)
  | hour :: hs, db, count =>
      if gen_skip min_time hour then
        gen_loop rule prices date min_time hs db count
      else
        let ins := insert_scheduled_action db (rules_row rule prices date hour)
        gen_loop rule prices date min_time hs ins.1
          (count + if ins.2 then 1 else 0)

/-- `rules::generate_schedules_for_rule_and_date` (rules.rs:492-568). -/
def generate_schedules_for_rule_and_date (db : List ScheduledAction)
    (rule : Rule) (prices : List HourlyPrice) (date : Nat)
    (min_time : Option Time) : List ScheduledAction × Nat :=
  if (rule.days_of_week.land (day_bit date) == 0) then (db, 0)
  else
    let optimal := calculate_optimal_hours prices rule.max_hours
      rule.min_continuous_hours rule.time_window_start rule.time_window_end
    gen_loop rule prices date min_time optimal.hours db 0

/-- The stale-entry purge DELETE at the start of
`regenerate_schedules_for_rule` (rules.rs:403-415); `filter` keeps exactly
the rows the DELETE does not match. -/
def purge_stale_pending (db : List ScheduledAction) (rule_id : Nat)
    (today : Nat) (current_time : Time) : List ScheduledAction :=
  db.filter (fun a =>
    !(a.rule_id == rule_id && a.status == "pending"
      && (decide (today < a.scheduled_date)
          || (a.scheduled_date == today && decide (current_time < a.start_time)))))

/-- The row INSERTed by `generate_schedule_with_prices`
(background_tasks.rs:260-273): same key and status, but the `(hour+1) % 24`
end-time convention. -/
def background_row (rule : Rule) (prices : List HourlyPrice) (date : Nat)
    (hour : Nat) : ScheduledAction :=
  ⟨rule.id, date, mkTime hour 0 0, background_end_time hour,
    price_at prices hour, "pending"⟩

/-- The per-hour insert loop of `generate_schedule_with_prices`
(background_tasks.rs:249-278). -/
def background_gen_loop (rule : Rule) (prices : List HourlyPrice) (date : Nat) :
    List Nat → List ScheduledAction → Nat → List ScheduledAction × Nat
  | [], db, count => (db, count)
  | hour :: hs, db, count =>
      let ins := insert_scheduled_action db (background_row rule prices date hour)
      background_gen_loop rule prices date hs ins.1
        (count + if ins.2 then 1 else 0)

/-- `background_tasks::generate_schedule_with_prices`
(background_tasks.rs:206-289): fold the per-rule generation over the
enabled rules (the SQL `WHERE is_enabled = true`). -/
def generate_schedule_with_prices (db : List ScheduledAction)
    (rules : List Rule) (prices : List HourlyPrice) (date : Nat) :
    List ScheduledAction × Nat :=
  (rules.filter (·.is_enabled)).foldl
    (fun acc rule =>
      if (rule.days_of_week.land (day_bit date) == 0) then acc
      else
        let optimal := calculate_optimal_hours prices rule.max_hours
          rule.min_continuous_hours rule.time_window_start rule.time_window_end
        background_gen_loop rule prices date optimal.hours acc.1 acc.2)
    (db, 0)

/-- First UPDATE of `mark_expired_actions_as_missed`
(background_tasks.rs:319-332): today's pending rows with
`end_time > start_time` and `end_time <= current_time` become `missed`. -/
def mark_missed_normal (today : Nat) (current_time : Time)
    (a : ScheduledAction) : ScheduledAction :=
  if a.status == "pending" && a.scheduled_date == today
      && decide (a.start_time < a.end_time) && decide (a.end_time ≤ current_time)
  then { a with status := "missed" } else a

/-- Second UPDATE of `mark_expired_actions_as_missed`
(background_tasks.rs:346-356): pending rows dated before today become
`missed` unconditionally. -/
def mark_missed_old (today : Nat) (a : ScheduledAction) : ScheduledAction :=
  if a.status == "pending" && decide (a.scheduled_date < today)
  then { a with status := "missed" } else a

/-- `background_tasks::mark_expired_actions_as_missed`
(background_tasks.rs:312-366): the two UPDATEs applied in order to every
row of the table. -/
def mark_expired_actions_as_missed (db : List ScheduledAction) (today : Nat)
    (current_time : Time) : List ScheduledAction :=
  (db.map (mark_missed_normal today current_time)).map (mark_missed_old today)

/-- `schedule.rs:329`: the statuses the PATCH status endpoint accepts. -/
def valid_statuses : List String := ["executed", "failed", "cancelled", "pending"]

/-- The validation test of `update_schedule_status` (schedule.rs:330). -/
def update_schedule_status_valid (status : String) : Bool :=
  valid_statuses.contains status

/-- `rules::CreateRuleRequest` (rules.rs:15-24), constraint-relevant fields. -/
structure CreateRuleRequest where
  max_hours : Int
  time_window_start : Option Nat
  time_window_end : Option Nat
  min_continuous_hours : Option Int
  days_of_week : Option Int
  deriving Repr, DecidableEq

/-- `rules::UpdateRuleRequest` (rules.rs:26-35), constraint-relevant fields. -/
structure UpdateRuleRequest where
  max_hours : Option Int
  time_window_start : Option Nat
  time_window_end : Option Nat
  min_continuous_hours : Option Int
  days_of_week : Option Int
  is_enabled : Option Bool
  deriving Repr, DecidableEq

/-- The validation and insert of `create_rule` (rules.rs:149-183): both
range checks run before the INSERT and before any regeneration; on failure
the handler returns `AppError::BadRequest` without touching the store. -/
def create_rule (body : CreateRuleRequest) : Except String Rule :=
  if body.max_hours < 1 || body.max_hours > 24 then
    Except.error "max_hours must be between 1 and 24"
  else
    let min_continuous := body.min_continuous_hours.getD 1
    if min_continuous < 1 || min_continuous > body.max_hours then
      Except.error "min_continuous_hours must be between 1 and max_hours"
    else
      Except.ok
        { id := 0
          max_hours := body.max_hours
          time_window_start := body.time_window_start
          time_window_end := body.time_window_end
          min_continuous_hours := min_continuous
          days_of_week := body.days_of_week.getD 127
          is_enabled := true }

/-- The field resolution and UPDATE of `update_rule` (rules.rs:278-312):
every field defaults to the existing value (`unwrap_or` / `Option::or`) and
the UPDATE is executed with no range validation whatsoever. -/
def update_rule_apply (existing : Rule) (body : UpdateRuleRequest) : Rule :=
  { existing with
    max_hours := body.max_hours.getD existing.max_hours
    time_window_start := body.time_window_start.or existing.time_window_start
    time_window_end := body.time_window_end.or existing.time_window_end
    min_continuous_hours :=
      body.min_continuous_hours.getD existing.min_continuous_hours
    days_of_week := body.days_of_week.getD existing.days_of_week
    is_enabled := body.is_enabled.getD existing.is_enabled }

/-- The uniqueness invariant of `scheduled_actions`: at most one row per
`(rule_id, scheduled_date, start_time)`. -/
def keys_unique (db : List ScheduledAction) : Prop :=
  db.Pairwise (fun a b => same_key a b = false)

/-! ## Partiality-explicit model of the selection algorithm (panic freedom)

`f64` is modeled as `Option ℚ` with `none` playing the role of NaN; every
`partial_cmp(..).unwrap()` and every `price_map[&hour]` index becomes an
explicit `Option` failure (`none` = the function panics). -/

/-- An `f64` value; `none` is NaN. -/
abbrev F64 := Option ℚ

abbrev HourlyPriceF := HourlyPriceP F64

abbrev OptimalHoursF := OptimalHoursP F64

/-- `f64::partial_cmp`: defined exactly when neither operand is NaN. -/
def fcmp : F64 → F64 → Option Ordering
  | some a, some b => some (compare a b)
  | _, _ => none

/-- `f64` addition: NaN-propagating, never a panic. -/
def fadd : F64 → F64 → F64
  | some a, some b => some (a + b)
  | _, _ => none

/-- `f64` division (used only with a block-length divisor `≥ 1`):
NaN-propagating. -/
def fdiv : F64 → F64 → F64
  | some a, some b => some (a / b)
  | _, _ => none

/-- Fallible ordered insert: each comparator call is an `unwrap`, so the
insert aborts (`none`) when the comparator is undefined. -/
def finsert {α : Type} (cmp : α → α → Option Ordering) (a : α) :
    List α → Option (List α)
  | [] => some [a]
  | b :: l =>
      match cmp a b with
      | none => none
      | some Ordering.gt =>
          match finsert cmp a l with
          | none => none
          | some l' => some (b :: l')
      | some _ => some (a :: b :: l)

/-- Fallible stable sort modeling `Vec::sort_by` with an unwrapping
comparator: `none` is the sort panicking. -/
def fsort {α : Type} (cmp : α → α → Option Ordering) :
    List α → Option (List α)
  | [] => some []
  | a :: l =>
      match fsort cmp l with
      | none => none
      | some l' => finsert cmp a l'

/-- `calculate_scattered_hours` with the sort's panic made explicit. -/
def calculate_scattered_hoursF (prices : List HourlyPriceF)
    (max_hours : Nat) : Option OptimalHoursF :=
  match fsort (fun a b => fcmp a.price b.price) prices with
  | none => none
  | some sorted_prices =>
      let selected := sorted_prices.take max_hours
      let total_price := selected.foldl (fun acc p => fadd acc p.price) (some 0)
      some ⟨List.insertionSort (· ≤ ·) (selected.map (·.hour)), total_price⟩

/-- The HashMap lookup behind `price_map[&hour]`: `none` means the index
panics (key absent). -/
def price_mapF (prices : List HourlyPriceF) (h : Nat) : Option F64 :=
  (prices.reverse.find? (fun p => p.hour == h)).map (·.price)

/-- Panic-explicit inner block loop (scheduler.rs:118-137). -/
def build_blocksF (pm : Nat → Option F64) (min_continuous : Nat) :
    List Nat → List Nat → F64 → Option (List (List Nat × F64))
  | [], _, _ => some []
  | curr :: rest, block_hours, block_price =>
      let prev := block_hours.getLastD 0
      if curr == prev + 1 || (prev == 23 && curr == 0) then
        match pm curr with
        | none => none
        | some pc =>
            let bh := block_hours ++ [curr]
            let bp := fadd block_price pc
            match build_blocksF pm min_continuous rest bh bp with
            | none => none
            | some bs =>
                if min_continuous ≤ bh.length then
                  some ((bh, fdiv bp (some (bh.length : ℚ))) :: bs)
                else some bs
      else some []

/-- Panic-explicit outer block loop (scheduler.rs:114-138). -/
def all_blocksF (pm : Nat → Option F64) (min_continuous : Nat) :
    List Nat → Option (List (List Nat × F64))
  | [] => some []
  | h :: rest =>
      match pm h with
      | none => none
      | some ph =>
          match build_blocksF pm min_continuous rest [h] ph with
          | none => none
          | some bs1 =>
              match all_blocksF pm min_continuous rest with
              | none => none
              | some bs2 => some (bs1 ++ bs2)

/-- The greedy accumulation `total_price += price_map[hour]`
(scheduler.rs:159-161) over one block; `none` is a lookup panicking. -/
def sum_block_prices (pm : Nat → Option F64) : List Nat → F64 → Option F64
  | [], acc => some acc
  | h :: hs, acc =>
      match pm h with
      | none => none
      | some p => sum_block_prices pm hs (fadd acc p)

/-- Panic-explicit greedy selection (scheduler.rs:151-168). -/
def select_blocksF (pm : Nat → Option F64) (max_hours : Nat) :
    List (List Nat × F64) → List Nat → F64 → Option (List Nat × F64)
  | [], selected_hours, total_price => some (selected_hours, total_price)
  | (block_hours, _) :: rest, selected_hours, total_price =>
      let overlaps := block_hours.any (fun h => selected_hours.contains h)
      if !overlaps && decide (selected_hours.length + block_hours.length ≤ max_hours) then
        match sum_block_prices pm block_hours total_price with
        | none => none
        | some total_price' =>
            let selected_hours' := selected_hours ++ block_hours
            if max_hours ≤ selected_hours'.length then
              some (selected_hours', total_price')
            else select_blocksF pm max_hours rest selected_hours' total_price'
      else select_blocksF pm max_hours rest selected_hours total_price

/-- Panic-explicit `calculate_continuous_blocks` (scheduler.rs:91-176). -/
def calculate_continuous_blocksF (prices : List HourlyPriceF)
    (max_hours min_continuous : Nat) : Option OptimalHoursF :=
  if prices.length < min_continuous then some ⟨[], some 0⟩
  else
    let pm := price_mapF prices
    let available_hours := List.insertionSort (· ≤ ·) (prices.map (·.hour))
    match all_blocksF pm min_continuous available_hours with
    | none => none
    | some blocks =>
        if blocks.isEmpty then some ⟨[], some 0⟩
        else
          match fsort (fun a b => fcmp a.2 b.2) blocks with
          | none => none
          | some sorted_blocks =>
              match select_blocksF pm max_hours sorted_blocks [] (some 0) with
              | none => none
              | some st => some ⟨List.insertionSort (· ≤ ·) st.1, st.2⟩

/-- Panic-explicit `calculate_optimal_hours` (scheduler.rs:12-36): `none`
exactly when some unwrapped comparison or map index would panic. -/
def calculate_optimal_hoursF (prices : List HourlyPriceF)
    (max_hours min_continuous_hours : Int)
    (time_window_start time_window_end : Option Nat) : Option OptimalHoursF :=
  let filtered_prices := filter_by_time_window prices time_window_start time_window_end
  if filtered_prices.isEmpty then some ⟨[], some 0⟩
  else if min_continuous_hours ≤ 1 then
    calculate_scattered_hoursF filtered_prices (usize_of_i32 max_hours)
  else
    calculate_continuous_blocksF filtered_prices (usize_of_i32 max_hours)
      (usize_of_i32 min_continuous_hours)

example :
    calculate_optimal_hours scenario_prices 3 1 none none =
      ⟨[0, 1, 2], 3/20⟩ := by decide

example :
    calculate_optimal_hours scenario_prices 4 2 none none =
      ⟨[0, 1, 2, 3], 1/5⟩ := by decide

/-! ## Generic facts about the selection algorithm -/

theorem usize_of_i32_eq {n : Int} (h0 : 0 ≤ n) (h64 : n < 2 ^ 64) :
    usize_of_i32 n = n.toNat := by
  unfold usize_of_i32
  rw [Int.emod_eq_of_lt h0 (by exact_mod_cast h64)]

theorem mem_filter_by_time_window {π : Type} {prices : List (HourlyPriceP π)}
    {s e : Option Nat} {p : HourlyPriceP π} :
    p ∈ filter_by_time_window prices s e ↔
      p ∈ prices ∧ in_time_window s e p.hour = true := by
  cases s <;> cases e <;>
    simp [filter_by_time_window, in_time_window, List.mem_filter]

theorem calculate_scattered_hours_length (prices : List HourlyPrice)
    (max_hours : Nat) :
    (calculate_scattered_hours prices max_hours).hours.length =
      min max_hours prices.length := by
  simp [calculate_scattered_hours, List.length_insertionSort, List.length_take]

theorem mem_calculate_scattered_hours {prices : List HourlyPrice}
    {max_hours : Nat} {h : Nat}
    (hm : h ∈ (calculate_scattered_hours prices max_hours).hours) :
    h ∈ prices.map (·.hour) := by
  simp only [calculate_scattered_hours, List.mem_insertionSort, List.mem_map] at hm ⊢
  obtain ⟨p, hp, rfl⟩ := hm
  exact ⟨p, (List.mem_insertionSort priceLE).mp (List.mem_of_mem_take hp), rfl⟩

theorem build_blocks_hours_subset (pm : Nat → ℚ) (minc : Nat) :
    ∀ (l bh : List Nat) (bp : ℚ) (b : List Nat × ℚ),
      b ∈ build_blocks pm minc l bh bp → ∀ h ∈ b.1, h ∈ bh ∨ h ∈ l
  | [], _, _, _, hb => by simp [build_blocks] at hb
  | curr :: rest, bh, bp, b, hb => by
    simp only [build_blocks] at hb
    split at hb
    · rw [List.mem_append] at hb
      rcases hb with hb | hb
      · split at hb
        · simp only [List.mem_singleton] at hb
          subst hb
          intro h hh
          simp only [List.mem_append, List.mem_singleton] at hh
          rcases hh with hh | hh
          · exact Or.inl hh
          · exact Or.inr (by simp [hh])
        · simp at hb
      · intro h hh
        rcases build_blocks_hours_subset pm minc rest (bh ++ [curr]) _ b hb h hh with h1 | h1
        · simp only [List.mem_append, List.mem_singleton] at h1
          rcases h1 with h1 | h1
          · exact Or.inl h1
          · exact Or.inr (by simp [h1])
        · exact Or.inr (by simp [h1])
    · simp at hb

theorem all_blocks_hours_subset (pm : Nat → ℚ) (minc : Nat) :
    ∀ (l : List Nat) (b : List Nat × ℚ),
      b ∈ all_blocks pm minc l → ∀ h ∈ b.1, h ∈ l
  | [], _, hb => by simp [all_blocks] at hb
  | x :: rest, b, hb => by
    simp only [all_blocks, List.mem_append] at hb
    intro h hh
    rcases hb with hb | hb
    · rcases build_blocks_hours_subset pm minc rest [x] _ b hb h hh with h1 | h1
      · simp only [List.mem_singleton] at h1
        simp [h1]
      · simp [h1]
    · exact List.mem_cons_of_mem x (all_blocks_hours_subset pm minc rest b hb h hh)

theorem select_blocks_length (pm : Nat → ℚ) (max_hours : Nat) :
    ∀ (blocks : List (List Nat × ℚ)) (sel : List Nat) (tot : ℚ),
      sel.length ≤ max_hours →
      (select_blocks pm max_hours blocks sel tot).1.length ≤ max_hours
  | [], _, _, h => h
  | (bh, avg) :: rest, sel, tot, h => by
    simp only [select_blocks]
    split
    · next hcond =>
      rw [Bool.and_eq_true, decide_eq_true_eq] at hcond
      split
      · simpa using hcond.2
      · exact select_blocks_length pm max_hours rest _ _ (by simpa using hcond.2)
    · exact select_blocks_length pm max_hours rest sel tot h

theorem select_blocks_hours_subset (pm : Nat → ℚ) (max_hours : Nat) {S : List Nat} :
    ∀ (blocks : List (List Nat × ℚ)) (sel : List Nat) (tot : ℚ),
      (∀ b ∈ blocks, ∀ h ∈ b.1, h ∈ S) → (∀ h ∈ sel, h ∈ S) →
      ∀ h ∈ (select_blocks pm max_hours blocks sel tot).1, h ∈ S
  | [], _, _, _, hsel => hsel
  | (bh, avg) :: rest, sel, tot, hbl, hsel => by
    have hbh : ∀ h ∈ bh, h ∈ S := fun h hh => hbl (bh, avg) (by simp) h hh
    have hsel' : ∀ h ∈ sel ++ bh, h ∈ S := by
      intro h hh
      rcases List.mem_append.mp hh with hh | hh
      · exact hsel h hh
      · exact hbh h hh
    have hrest : ∀ b ∈ rest, ∀ h ∈ b.1, h ∈ S := fun b hb => hbl b (by simp [hb])
    simp only [select_blocks]
    split
    · split
      · simpa using hsel'
      · exact select_blocks_hours_subset pm max_hours rest _ _ hrest hsel'
    · exact select_blocks_hours_subset pm max_hours rest sel tot hrest hsel

theorem calculate_continuous_blocks_length (prices : List HourlyPrice)
    (max_hours minc : Nat) :
    (calculate_continuous_blocks prices max_hours minc).hours.length ≤ max_hours := by
  simp only [calculate_continuous_blocks]
  split
  · simp
  · split
    · simp
    · simpa [List.length_insertionSort] using
        select_blocks_length (price_map prices) max_hours _ [] 0 (by simp)

theorem mem_calculate_continuous_blocks {prices : List HourlyPrice}
    {max_hours minc : Nat} {h : Nat}
    (hm : h ∈ (calculate_continuous_blocks prices max_hours minc).hours) :
    h ∈ prices.map (·.hour) := by
  simp only [calculate_continuous_blocks] at hm
  split at hm
  · simp at hm
  · split at hm
    · simp at hm
    · rw [List.mem_insertionSort] at hm
      refine (List.mem_insertionSort (· ≤ ·)).mp ?_
      refine select_blocks_hours_subset (price_map prices) max_hours _ [] 0
        ?_ (by simp) h hm
      intro b hb hh hmem
      have hb' := (List.mem_insertionSort avgLE).mp hb
      have := all_blocks_hours_subset (price_map prices) minc _ b hb' hh hmem
      exact this

theorem mem_calculate_optimal_hours {prices : List HourlyPrice}
    {max_hours min_continuous_hours : Int} {tws twe : Option Nat} {h : Nat}
    (hm : h ∈ (calculate_optimal_hours prices max_hours min_continuous_hours
      tws twe).hours) :
    ∃ p ∈ prices, p.hour = h ∧ in_time_window tws twe h = true := by
  simp only [calculate_optimal_hours] at hm
  split at hm
  · simp at hm
  · have key : h ∈ (filter_by_time_window prices tws twe).map (·.hour) := by
      split at hm
      · exact mem_calculate_scattered_hours hm
      · exact mem_calculate_continuous_blocks hm
    rw [List.mem_map] at key
    obtain ⟨p, hp, rfl⟩ := key
    have := mem_filter_by_time_window.mp hp
    exact ⟨p, this.1, rfl, this.2⟩

theorem calculate_optimal_hours_length (prices : List HourlyPrice)
    (max_hours min_continuous_hours : Int) (tws twe : Option Nat) :
    (calculate_optimal_hours prices max_hours min_continuous_hours
      tws twe).hours.length ≤ usize_of_i32 max_hours := by
  simp only [calculate_optimal_hours]
  split
  · simp
  · split
    · rw [calculate_scattered_hours_length]
      exact Nat.min_le_left _ _
    · exact calculate_continuous_blocks_length _ _ _

/-! ## Claim C1 -/

/-- **C1**: for every price list, every `max_hours ≥ 1` (an `i32`, hence
`< 2^31`), every `min_continuous_hours`, and every optional time window, the
selection of `calculate_optimal_hours` has at most `max_hours` hours and
every selected hour lies inside the requested window; for the
midnight-crossing window `start=20, end=6` every selected hour is in
`{20..23} ∪ {0..5}` and never in `{6..19}`. -/
theorem claim1_selection_bounded_and_in_window
    (prices : List HourlyPrice) (max_hours min_continuous_hours : Int)
    (tws twe : Option Nat)
    (hmax : 1 ≤ max_hours) (hmax' : max_hours < 2 ^ 31)
    (hhr : ∀ p ∈ prices, p.hour < 24) :
    (((calculate_optimal_hours prices max_hours min_continuous_hours
        tws twe).hours.length : Int) ≤ max_hours
      ∧ ∀ h ∈ (calculate_optimal_hours prices max_hours min_continuous_hours
          tws twe).hours, in_time_window tws twe h = true)
    ∧ (tws = some 20 → twe = some 6 →
        ∀ h ∈ (calculate_optimal_hours prices max_hours min_continuous_hours
          tws twe).hours, ((20 ≤ h ∧ h ≤ 23) ∨ h ≤ 5) ∧ ¬(6 ≤ h ∧ h ≤ 19)) := by
  have hwin : ∀ h ∈ (calculate_optimal_hours prices max_hours
      min_continuous_hours tws twe).hours, in_time_window tws twe h = true := by
    intro h hm
    obtain ⟨p, _, _, hw⟩ := mem_calculate_optimal_hours hm
    exact hw
  refine ⟨⟨?_, hwin⟩, ?_⟩
  · have h1 := calculate_optimal_hours_length prices max_hours
      min_continuous_hours tws twe
    have h2 : usize_of_i32 max_hours = max_hours.toNat :=
      usize_of_i32_eq (by omega) (by omega)
    rw [h2] at h1
    omega
  · rintro rfl rfl h hm
    obtain ⟨p, hp, rfl, hw⟩ := mem_calculate_optimal_hours hm
    have h24 := hhr p hp
    simp only [in_time_window] at hw
    rw [if_neg (by omega)] at hw
    rw [Bool.or_eq_true, decide_eq_true_eq, decide_eq_true_eq] at hw
    omega

/-- Witness for C1 at a concrete input: a midnight-crossing window `20→6`
over six prices, `max_hours = 2`, `min_continuous_hours = 1`. -/
theorem claim1_selection_bounded_and_in_window_witness :
    (((calculate_optimal_hours
        [⟨21, 3⟩, ⟨22, 1⟩, ⟨23, 2⟩, ⟨0, 1⟩, ⟨5, 4⟩, ⟨10, 9⟩] 2 1
        (some 20) (some 6)).hours.length : Int) ≤ 2
      ∧ ∀ h ∈ (calculate_optimal_hours
          [⟨21, 3⟩, ⟨22, 1⟩, ⟨23, 2⟩, ⟨0, 1⟩, ⟨5, 4⟩, ⟨10, 9⟩] 2 1
          (some 20) (some 6)).hours, in_time_window (some 20) (some 6) h = true)
    ∧ (some 20 = some 20 → some 6 = some 6 →
        ∀ h ∈ (calculate_optimal_hours
          [⟨21, 3⟩, ⟨22, 1⟩, ⟨23, 2⟩, ⟨0, 1⟩, ⟨5, 4⟩, ⟨10, 9⟩] 2 1
          (some 20) (some 6)).hours,
          ((20 ≤ h ∧ h ≤ 23) ∨ h ≤ 5) ∧ ¬(6 ≤ h ∧ h ≤ 19)) :=
  claim1_selection_bounded_and_in_window
    [⟨21, 3⟩, ⟨22, 1⟩, ⟨23, 2⟩, ⟨0, 1⟩, ⟨5, 4⟩, ⟨10, 9⟩] 2 1
    (some 20) (some 6) (by decide) (by decide) (by decide)

/-! ## Claim C3 -/

/-- **C3** (failing input): the source's wrap-around check
`prev == 23 && curr == 0` (scheduler.rs:123-124) can never fire, because
`available_hours` is sorted ascending before the block enumeration, so hour
`0` always precedes hour `23`. Evaluated at the midnight-crossing window
`22→2` with hours `{22, 23, 0, 1}` all available and
`min_continuous_hours = 4`, the wrap block `{22, 23, 0, 1}` that the spec
expects is not enumerated and the selection is empty. -/
theorem claim3_no_midnight_wrap_block_at_failing_input :
    calculate_optimal_hours
      [⟨22, 1/10⟩, ⟨23, 1/10⟩, ⟨0, 1/10⟩, ⟨1, 1/10⟩] 4 4
      (some 22) (some 2) = ⟨[], 0⟩ := by decide

/-! ## Claim C2 -/

theorem filter_by_time_window_sublist {π : Type} (prices : List (HourlyPriceP π))
    (s e : Option Nat) :
    List.Sublist (filter_by_time_window prices s e) prices := by
  cases s <;> cases e <;> simp [filter_by_time_window]

/-- The heart of C2 on `calculate_scattered_hours` alone: for hour-distinct
prices, the selected hours carry prices no larger than any unselected hour's
price, and the reported total is the exact sum of the selected hours'
prices. -/
theorem calculate_scattered_hours_cheapest (prices : List HourlyPrice) (n : Nat)
    (hnd : (prices.map (·.hour)).Nodup) :
    (∀ p ∈ prices, ∀ q ∈ prices,
        p.hour ∈ (calculate_scattered_hours prices n).hours →
        q.hour ∉ (calculate_scattered_hours prices n).hours →
        p.price ≤ q.price)
    ∧ (calculate_scattered_hours prices n).total_price =
        ((prices.filter
            (fun p => decide (p.hour ∈ (calculate_scattered_hours prices n).hours))).map
          (·.price)).sum := by
  set sorted := List.insertionSort priceLE prices with hsorted_def
  have hperm : List.Perm sorted prices := List.perm_insertionSort priceLE prices
  have hsorted : List.Sorted priceLE sorted := List.sorted_insertionSort priceLE prices
  set sel := sorted.take n with hsel_def
  set dro := sorted.drop n with hdro_def
  have happ : sel ++ dro = sorted := List.take_append_drop n sorted
  have hhours : ∀ x : Nat,
      x ∈ (calculate_scattered_hours prices n).hours ↔ x ∈ sel.map (·.hour) := by
    intro x
    simp [calculate_scattered_hours, List.mem_insertionSort, hsel_def, hsorted_def]
  have hnd' : (sorted.map (·.hour)).Nodup :=
    ((hperm.map (·.hour)).nodup_iff).mpr hnd
  have hnd'' : (sel.map (·.hour) ++ dro.map (·.hour)).Nodup := by
    rw [← List.map_append, happ]
    exact hnd'
  have hdisj : (sel.map (·.hour)).Disjoint (dro.map (·.hour)) :=
    (List.nodup_append.mp hnd'').2.2
  have hmem_sel : ∀ p ∈ prices,
      p.hour ∈ (calculate_scattered_hours prices n).hours → p ∈ sel := by
    intro p hp hh
    rw [hhours] at hh
    have : p ∈ sel ++ dro := by rw [happ]; exact hperm.mem_iff.mpr hp
    rcases List.mem_append.mp this with h1 | h1
    · exact h1
    · exact absurd (List.mem_map_of_mem (·.hour) h1) (hdisj hh)
  have hmem_dro : ∀ q ∈ prices,
      q.hour ∉ (calculate_scattered_hours prices n).hours → q ∈ dro := by
    intro q hq hh
    have : q ∈ sel ++ dro := by rw [happ]; exact hperm.mem_iff.mpr hq
    rcases List.mem_append.mp this with h1 | h1
    · exact absurd ((hhours _).mpr (List.mem_map_of_mem (·.hour) h1)) hh
    · exact h1
  have hpairwise : ∀ p ∈ sel, ∀ q ∈ dro, p.price ≤ q.price := by
    have : List.Pairwise priceLE (sel ++ dro) := by
      rw [happ]; exact hsorted
    exact fun p hp q hq => (List.pairwise_append.mp this).2.2 p hp q hq
  constructor
  · intro p hp q hq hps hqs
    exact hpairwise p (hmem_sel p hp hps) q (hmem_dro q hq hqs)
  · have hfil : List.Perm (prices.filter
        (fun p => decide (p.hour ∈ (calculate_scattered_hours prices n).hours))) sel := by
      have h1 : sorted.filter
          (fun p => decide (p.hour ∈ (calculate_scattered_hours prices n).hours)) = sel := by
        rw [← happ, List.filter_append]
        have h2 : sel.filter
            (fun p => decide (p.hour ∈ (calculate_scattered_hours prices n).hours)) = sel := by
          rw [List.filter_eq_self]
          intro p hp
          simpa using (hhours _).mpr (List.mem_map_of_mem (·.hour) hp)
        have h3 : dro.filter
            (fun p => decide (p.hour ∈ (calculate_scattered_hours prices n).hours)) = [] := by
          rw [List.filter_eq_nil_iff]
          intro q hq
          simp only [decide_eq_true_eq]
          intro hcontra
          exact hdisj ((hhours _).mp hcontra) (List.mem_map_of_mem (·.hour) hq)
        rw [h2, h3, List.append_nil]
      exact ((hperm.filter _).symm).trans (by rw [h1])
    have : ((prices.filter
        (fun p => decide (p.hour ∈ (calculate_scattered_hours prices n).hours))).map
          (·.price)).sum = ((sel.map (·.price)).sum) :=
      (hfil.map (·.price)).sum_eq
    rw [this]
    rfl

theorem calculate_scattered_hours_sorted (prices : List HourlyPrice) (n : Nat) :
    (calculate_scattered_hours prices n).hours.Sorted (· ≤ ·) := by
  simpa [calculate_scattered_hours] using
    List.sorted_insertionSort (· ≤ ·)
      (((List.insertionSort priceLE prices).take n).map (·.hour))

/-- **C2**: with `min_continuous_hours ≤ 1` (scattered strategy) and
hour-distinct prices, the selection is chronologically sorted, takes exactly
`min max_hours |filtered|` hours, selects only cheapest-first (every selected
hour's price is `≤` every unselected available hour's price), and
`total_price` is the exact sum of the selected hours' prices; and on the
spec's concrete scenario (hours 0-5 at 0.05, others at 0.20, `max_hours=3`,
`min_continuous_hours=1`) the result is hours `[0,1,2]` with total `0.15`. -/
theorem claim2_scattered_cheapest_hours
    (prices : List HourlyPrice) (max_hours min_continuous_hours : Int)
    (tws twe : Option Nat)
    (hminc : min_continuous_hours ≤ 1)
    (hmax0 : 0 ≤ max_hours) (hmax31 : max_hours < 2 ^ 31)
    (hnd : (prices.map (·.hour)).Nodup) :
    (calculate_optimal_hours prices max_hours min_continuous_hours
        tws twe).hours.Sorted (· ≤ ·)
    ∧ (calculate_optimal_hours prices max_hours min_continuous_hours
        tws twe).hours.length =
      min max_hours.toNat (filter_by_time_window prices tws twe).length
    ∧ (∀ p ∈ filter_by_time_window prices tws twe,
        ∀ q ∈ filter_by_time_window prices tws twe,
        p.hour ∈ (calculate_optimal_hours prices max_hours min_continuous_hours
          tws twe).hours →
        q.hour ∉ (calculate_optimal_hours prices max_hours min_continuous_hours
          tws twe).hours →
        p.price ≤ q.price)
    ∧ (calculate_optimal_hours prices max_hours min_continuous_hours
        tws twe).total_price =
      (((filter_by_time_window prices tws twe).filter
          (fun p => decide (p.hour ∈ (calculate_optimal_hours prices max_hours
            min_continuous_hours tws twe).hours))).map (·.price)).sum
    ∧ calculate_optimal_hours scenario_prices 3 1 none none =
        ⟨[0, 1, 2], 3/20⟩ := by
  have husize : usize_of_i32 max_hours = max_hours.toNat :=
    usize_of_i32_eq hmax0 (by omega)
  by_cases hF : filter_by_time_window prices tws twe = []
  · have hr : calculate_optimal_hours prices max_hours min_continuous_hours
        tws twe = ⟨[], 0⟩ := by
      simp [calculate_optimal_hours, hF]
    refine ⟨?_, ?_, ?_, ?_, by decide⟩
    · rw [hr]; exact List.sorted_nil
    · rw [hr, hF]; simp
    · intro p hp; rw [hF] at hp; simp at hp
    · rw [hr, hF]; simp
  · have hr : calculate_optimal_hours prices max_hours min_continuous_hours
        tws twe =
        calculate_scattered_hours (filter_by_time_window prices tws twe)
          (usize_of_i32 max_hours) := by
      simp [calculate_optimal_hours, hF, hminc]
    have hndF : ((filter_by_time_window prices tws twe).map (·.hour)).Nodup :=
      List.Nodup.sublist
        (List.Sublist.map (·.hour) (filter_by_time_window_sublist prices tws twe))
        hnd
    have hch := calculate_scattered_hours_cheapest
      (filter_by_time_window prices tws twe) (usize_of_i32 max_hours) hndF
    refine ⟨?_, ?_, ?_, ?_, by decide⟩
    · rw [hr]; exact calculate_scattered_hours_sorted _ _
    · rw [hr, calculate_scattered_hours_length, husize]
    · rw [hr]; exact hch.1
    · rw [hr]; exact hch.2

/-- Witness for C2 at the spec's §8 scenario input. -/
theorem claim2_scattered_cheapest_hours_witness :
    (calculate_optimal_hours scenario_prices 3 1 none none).hours.Sorted (· ≤ ·)
    ∧ (calculate_optimal_hours scenario_prices 3 1 none none).hours.length =
      min (Int.toNat 3) (filter_by_time_window scenario_prices none none).length
    ∧ (∀ p ∈ filter_by_time_window scenario_prices none none,
        ∀ q ∈ filter_by_time_window scenario_prices none none,
        p.hour ∈ (calculate_optimal_hours scenario_prices 3 1 none none).hours →
        q.hour ∉ (calculate_optimal_hours scenario_prices 3 1 none none).hours →
        p.price ≤ q.price)
    ∧ (calculate_optimal_hours scenario_prices 3 1 none none).total_price =
      (((filter_by_time_window scenario_prices none none).filter
          (fun p => decide (p.hour ∈ (calculate_optimal_hours scenario_prices
            3 1 none none).hours))).map (·.price)).sum
    ∧ calculate_optimal_hours scenario_prices 3 1 none none =
        ⟨[0, 1, 2], 3/20⟩ :=
  claim2_scattered_cheapest_hours scenario_prices 3 1 none none
    (by decide) (by decide) (by decide) (by decide)

/-! ## Claim C4 -/

theorem same_key_refl (a : ScheduledAction) : same_key a a = true := by
  simp [same_key]

theorem insert_scheduled_action_mem (db : List ScheduledAction)
    (row : ScheduledAction) {a : ScheduledAction} (h : a ∈ db) :
    a ∈ (insert_scheduled_action db row).1 := by
  unfold insert_scheduled_action
  split
  · exact h
  · exact List.mem_append_left _ h

theorem insert_scheduled_action_keys_unique (db : List ScheduledAction)
    (row : ScheduledAction) (h : keys_unique db) :
    keys_unique (insert_scheduled_action db row).1 := by
  unfold insert_scheduled_action
  split
  · exact h
  · next hany =>
    have hany' : ∀ a ∈ db, same_key a row = false := by
      intro a ha
      by_contra hc
      exact hany (List.any_eq_true.mpr
        ⟨a, ha, by revert hc; cases same_key a row <;> simp⟩)
    unfold keys_unique
    rw [List.pairwise_append]
    exact ⟨h, List.pairwise_singleton _ _,
      fun a ha b hb => by
        simp only [List.mem_singleton] at hb
        subst hb
        exact hany' a ha⟩

theorem gen_loop_mem (rule : Rule) (prices : List HourlyPrice) (date : Nat)
    (mt : Option Time) :
    ∀ (hs : List Nat) (db : List ScheduledAction) (count : Nat)
      (a : ScheduledAction), a ∈ db →
      a ∈ (gen_loop rule prices date mt hs db count).1
  | [], _, _, _, h => h
  | hour :: hs, db, count, a, h => by
    simp only [gen_loop]
    split
    · exact gen_loop_mem rule prices date mt hs db count a h
    · exact gen_loop_mem rule prices date mt hs _ _ a
        (insert_scheduled_action_mem db _ h)

theorem gen_loop_keys_unique (rule : Rule) (prices : List HourlyPrice)
    (date : Nat) (mt : Option Time) :
    ∀ (hs : List Nat) (db : List ScheduledAction) (count : Nat),
      keys_unique db → keys_unique (gen_loop rule prices date mt hs db count).1
  | [], _, _, h => h
  | hour :: hs, db, count, h => by
    simp only [gen_loop]
    split
    · exact gen_loop_keys_unique rule prices date mt hs db count h
    · exact gen_loop_keys_unique rule prices date mt hs _ _
        (insert_scheduled_action_keys_unique db _ h)

theorem gen_loop_key_present (rule : Rule) (prices : List HourlyPrice)
    (date : Nat) (mt : Option Time) :
    ∀ (hs : List Nat) (db : List ScheduledAction) (count : Nat) (hour : Nat),
      hour ∈ hs → gen_skip mt hour = false →
      ∃ a ∈ (gen_loop rule prices date mt hs db count).1,
        same_key a (rules_row rule prices date hour) = true
  | [], _, _, hour, hmem, _ => absurd hmem (List.not_mem_nil hour)
  | h0 :: hs, db, count, hour, hmem, hskip => by
    rcases List.mem_cons.mp hmem with rfl | hmem'
    · simp only [gen_loop, hskip, Bool.false_eq_true, if_false]
      have hrow : ∃ a ∈ (insert_scheduled_action db
          (rules_row rule prices date hour)).1,
          same_key a (rules_row rule prices date hour) = true := by
        unfold insert_scheduled_action
        split
        · next hany =>
          obtain ⟨x, hx, hxk⟩ := List.any_eq_true.mp hany
          exact ⟨x, hx, hxk⟩
        · exact ⟨rules_row rule prices date hour,
            List.mem_append_right _ (by simp), same_key_refl _⟩
      obtain ⟨a, ha, hak⟩ := hrow
      exact ⟨a, gen_loop_mem rule prices date mt hs _ _ a ha, hak⟩
    · simp only [gen_loop]
      split
      · exact gen_loop_key_present rule prices date mt hs db count hour hmem' hskip
      · exact gen_loop_key_present rule prices date mt hs _ _ hour hmem' hskip

theorem gen_loop_noop (rule : Rule) (prices : List HourlyPrice) (date : Nat)
    (mt : Option Time) :
    ∀ (hs : List Nat) (db : List ScheduledAction) (count : Nat),
      (∀ hour ∈ hs, gen_skip mt hour = false →
        ∃ a ∈ db, same_key a (rules_row rule prices date hour) = true) →
      gen_loop rule prices date mt hs db count = (db, count)
  | [], _, _, _ => rfl
  | hour :: hs, db, count, hkey => by
    simp only [gen_loop]
    by_cases hskip : gen_skip mt hour = true
    · rw [if_pos hskip]
      exact gen_loop_noop rule prices date mt hs db count
        (fun h hm hs' => hkey h (List.mem_cons_of_mem _ hm) hs')
    · rw [if_neg hskip]
      have hskip' : gen_skip mt hour = false := by
        revert hskip; cases gen_skip mt hour <;> simp
      obtain ⟨a, ha, hak⟩ := hkey hour (List.mem_cons_self _ _) hskip'
      have hins : insert_scheduled_action db (rules_row rule prices date hour) =
          (db, false) := by
        unfold insert_scheduled_action
        rw [if_pos (List.any_eq_true.mpr ⟨a, ha, hak⟩)]
      rw [hins]
      simpa using gen_loop_noop rule prices date mt hs db count
        (fun h hm hs' => hkey h (List.mem_cons_of_mem _ hm) hs')

/-- **C4**: regenerating the schedule of a rule for a date twice in
succession with unchanged prices is idempotent — the second run leaves the
table exactly as the first run left it and creates zero rows — and the
uniqueness invariant (at most one row per `(rule_id, date, start_time)`,
enforced by `ON CONFLICT DO NOTHING`) is preserved. -/
theorem claim4_regeneration_idempotent (db : List ScheduledAction)
    (rule : Rule) (prices : List HourlyPrice) (date : Nat)
    (min_time : Option Time) (hdb : keys_unique db) :
    generate_schedules_for_rule_and_date
        (generate_schedules_for_rule_and_date db rule prices date min_time).1
        rule prices date min_time =
      ((generate_schedules_for_rule_and_date db rule prices date min_time).1, 0)
    ∧ keys_unique
        (generate_schedules_for_rule_and_date db rule prices date min_time).1 := by
  by_cases hday : (rule.days_of_week.land (day_bit date) == 0) = true
  · simp only [generate_schedules_for_rule_and_date, if_pos hday]
    exact ⟨by simp, hdb⟩
  · simp only [generate_schedules_for_rule_and_date, if_neg hday]
    refine ⟨?_, gen_loop_keys_unique rule prices date min_time _ db 0 hdb⟩
    apply gen_loop_noop
    intro hour hm hskip
    exact gen_loop_key_present rule prices date min_time _ db 0 hour hm hskip

/-- Witness for C4 at a concrete input (empty table, an always-on rule with
two prices for Monday, no minimum time). -/
theorem claim4_regeneration_idempotent_witness :
    generate_schedules_for_rule_and_date
        (generate_schedules_for_rule_and_date []
          ⟨1, 2, none, none, 1, 127, true⟩ [⟨1, 3⟩, ⟨2, 1⟩] 0 none).1
        ⟨1, 2, none, none, 1, 127, true⟩ [⟨1, 3⟩, ⟨2, 1⟩] 0 none =
      ((generate_schedules_for_rule_and_date []
          ⟨1, 2, none, none, 1, 127, true⟩ [⟨1, 3⟩, ⟨2, 1⟩] 0 none).1, 0)
    ∧ keys_unique
        (generate_schedules_for_rule_and_date []
          ⟨1, 2, none, none, 1, 127, true⟩ [⟨1, 3⟩, ⟨2, 1⟩] 0 none).1 :=
  claim4_regeneration_idempotent [] ⟨1, 2, none, none, 1, 127, true⟩
    [⟨1, 3⟩, ⟨2, 1⟩] 0 none (by simp [keys_unique])

/-! ## Claim C5 -/

theorem purge_cond_iff (a : ScheduledAction) (rule_id today : Nat)
    (now : Time) :
    (a.rule_id == rule_id && a.status == "pending"
      && (decide (today < a.scheduled_date)
          || (a.scheduled_date == today && decide (now < a.start_time)))) = true
    ↔ (a.rule_id = rule_id ∧ a.status = "pending"
        ∧ (today < a.scheduled_date
            ∨ (a.scheduled_date = today ∧ now < a.start_time))) := by
  simp [and_assoc]

/-- **C5**: the stale-entry purge at the start of regeneration only removes
rows, deletes only rows of this rule that are `pending` with a start
strictly in the future (a later date, or today with a start time strictly
after now), and keeps every row whose start is at or before now as well as
every non-pending row. -/
theorem claim5_purge_only_future_pending (db : List ScheduledAction)
    (rule_id today : Nat) (now : Time) :
    List.Sublist (purge_stale_pending db rule_id today now) db
    ∧ (∀ a ∈ db,
        (a.status ≠ "pending" ∨ a.scheduled_date < today
          ∨ (a.scheduled_date = today ∧ a.start_time ≤ now)) →
        a ∈ purge_stale_pending db rule_id today now)
    ∧ (∀ a ∈ db, a ∉ purge_stale_pending db rule_id today now →
        a.rule_id = rule_id ∧ a.status = "pending"
          ∧ (today < a.scheduled_date
              ∨ (a.scheduled_date = today ∧ now < a.start_time))) := by
  refine ⟨List.filter_sublist _, ?_, ?_⟩
  · intro a ha hcond
    rw [purge_stale_pending, List.mem_filter]
    refine ⟨ha, ?_⟩
    rw [Bool.not_eq_true']
    rw [Bool.eq_false_iff]
    intro hdel
    obtain ⟨_, hst, hfut⟩ := (purge_cond_iff a rule_id today now).mp hdel
    rcases hcond with hc | hc | ⟨hc1, hc2⟩
    · exact hc hst
    · rcases hfut with hf | ⟨hf1, hf2⟩
      · exact absurd hf (by omega)
      · exact absurd hf1 (by omega)
    · rcases hfut with hf | ⟨hf1, hf2⟩
      · exact absurd hf (by omega)
      · exact absurd hf2 (not_lt.mpr hc2)
  · intro a ha hnot
    rw [purge_stale_pending, List.mem_filter, not_and] at hnot
    have h2 := hnot ha
    by_cases hb : (a.rule_id == rule_id && a.status == "pending"
        && (decide (today < a.scheduled_date)
            || (a.scheduled_date == today && decide (now < a.start_time)))) = true
    · exact (purge_cond_iff a rule_id today now).mp hb
    · exact absurd (by rw [Bool.eq_false_iff.mpr hb]; rfl) h2

/-- Witness for C5: a one-row table whose row is pending but already
started (today, start 10:00, now 12:00) survives the purge. -/
theorem claim5_purge_only_future_pending_witness :
    List.Sublist (purge_stale_pending
      [⟨1, 5, mkTime 10 0 0, mkTime 11 0 0, none, "pending"⟩] 1 5
      (mkTime 12 0 0))
      [⟨1, 5, mkTime 10 0 0, mkTime 11 0 0, none, "pending"⟩]
    ∧ (⟨1, 5, mkTime 10 0 0, mkTime 11 0 0, none, "pending"⟩ : ScheduledAction) ∈
        purge_stale_pending
          [⟨1, 5, mkTime 10 0 0, mkTime 11 0 0, none, "pending"⟩] 1 5
          (mkTime 12 0 0) := by
  have h := claim5_purge_only_future_pending
    [⟨1, 5, mkTime 10 0 0, mkTime 11 0 0, none, "pending"⟩] 1 5 (mkTime 12 0 0)
  exact ⟨h.1, h.2.1 _ (by simp) (by right; right; exact ⟨rfl, by decide⟩)⟩

/-! ## Claim C6 -/

/-- **C6**: one pass of the expiry sweep is the per-row application of the
two UPDATEs in order, and a row is turned into its `missed` copy exactly
when it is `pending` and either (dated today with `start < end ≤ now`) or
(dated strictly before today); any other row — non-pending, or pending with
a window still open or in the future — is returned unchanged. -/
theorem claim6_expiry_sweep_exactly (db : List ScheduledAction) (today : Nat)
    (now : Time) :
    mark_expired_actions_as_missed db today now =
      db.map (fun a => mark_missed_old today (mark_missed_normal today now a))
    ∧ (∀ a : ScheduledAction, a.status = "pending" →
        ((a.scheduled_date = today ∧ a.start_time < a.end_time
            ∧ a.end_time ≤ now)
          ∨ a.scheduled_date < today) →
        mark_missed_old today (mark_missed_normal today now a) =
          { a with status := "missed" })
    ∧ (∀ a : ScheduledAction, a.status ≠ "pending" →
        mark_missed_old today (mark_missed_normal today now a) = a)
    ∧ (∀ a : ScheduledAction, a.status = "pending" →
        ¬(((a.scheduled_date = today ∧ a.start_time < a.end_time
            ∧ a.end_time ≤ now)
          ∨ a.scheduled_date < today)) →
        mark_missed_old today (mark_missed_normal today now a) = a) := by
  refine ⟨?_, ?_, ?_, ?_⟩
  · rw [mark_expired_actions_as_missed, List.map_map]
    rfl
  · intro a hst hcond
    rcases hcond with ⟨hdate, hlt, hle⟩ | hdate
    · have h1 : mark_missed_normal today now a = { a with status := "missed" } := by
        unfold mark_missed_normal
        rw [if_pos]
        simp [hst, hdate, hlt, hle]
      rw [h1]
      unfold mark_missed_old
      rw [if_neg]
      simp
    · have h1 : mark_missed_normal today now a = a := by
        unfold mark_missed_normal
        rw [if_neg]
        simp only [Bool.and_eq_true, beq_iff_eq, decide_eq_true_eq]
        rintro ⟨⟨⟨-, hd⟩, -⟩, -⟩
        omega
      rw [h1]
      unfold mark_missed_old
      rw [if_pos]
      simp [hst, hdate]
  · intro a hst
    have h1 : mark_missed_normal today now a = a := by
      unfold mark_missed_normal
      rw [if_neg]
      simp only [Bool.and_eq_true, beq_iff_eq, decide_eq_true_eq]
      rintro ⟨⟨⟨hs, -⟩, -⟩, -⟩
      exact hst hs
    rw [h1]
    unfold mark_missed_old
    rw [if_neg]
    simp only [Bool.and_eq_true, beq_iff_eq, decide_eq_true_eq]
    rintro ⟨hs, -⟩
    exact hst hs
  · intro a hst hcond
    push_neg at hcond
    have h1 : mark_missed_normal today now a = a := by
      unfold mark_missed_normal
      rw [if_neg]
      simp only [Bool.and_eq_true, beq_iff_eq, decide_eq_true_eq]
      rintro ⟨⟨⟨-, hd⟩, hlt⟩, hle⟩
      exact absurd hle (not_le.mpr (hcond.1 hd hlt))
    rw [h1]
    unfold mark_missed_old
    rw [if_neg]
    simp only [Bool.and_eq_true, beq_iff_eq, decide_eq_true_eq]
    rintro ⟨-, hd⟩
    exact absurd hd (not_lt.mpr hcond.2)

/-- Witness for C6 at the spec's two examples: a pending 10:00-14:00 row
dated today is marked `missed` at 14:00, and a pending row dated yesterday
is marked `missed` regardless of its hours. -/
theorem claim6_expiry_sweep_exactly_witness :
    mark_missed_old 7
      (mark_missed_normal 7 (mkTime 14 0 0)
        ⟨1, 7, mkTime 10 0 0, mkTime 14 0 0, none, "pending"⟩) =
      ⟨1, 7, mkTime 10 0 0, mkTime 14 0 0, none, "missed"⟩
    ∧ mark_missed_old 7
      (mark_missed_normal 7 (mkTime 14 0 0)
        ⟨1, 6, mkTime 23 0 0, mkTime 0 0 0, none, "pending"⟩) =
      ⟨1, 6, mkTime 23 0 0, mkTime 0 0 0, none, "missed"⟩ := by
  constructor
  · exact (claim6_expiry_sweep_exactly [] 7 (mkTime 14 0 0)).2.1
      ⟨1, 7, mkTime 10 0 0, mkTime 14 0 0, none, "pending"⟩ rfl
      (Or.inl ⟨rfl, by decide, by decide⟩)
  · exact (claim6_expiry_sweep_exactly [] 7 (mkTime 14 0 0)).2.1
      ⟨1, 6, mkTime 23 0 0, mkTime 0 0 0, none, "pending"⟩ rfl
      (Or.inr (by decide))

/-! ## Claim C7 -/

/-- **C7** (counterexample): the two schedule-creation paths disagree on
`end_time` at `start_hour = 23` — the API regeneration path stores
`23:59:59` while the background generator stores `00:00:00`
(`(23+1) % 24`), so the end-time convention is not uniform. -/
theorem claim7_counterexample_hour23_end_time :
    rules_end_time 23 ≠ background_end_time 23 := by decide

/-- **C7** (amended): for `start_hour < 23` both creation paths compute the
same `end_time = start_hour + 1`, which also equals `(start_hour+1) % 24`;
at `start_hour = 23` the conventions split: the API regeneration paths
clamp to `23:59:59` (same day) while the background generator wraps to
`00:00:00`. -/
theorem claim7_end_time_conventions :
    (∀ hour : Nat, hour < 23 →
      rules_end_time hour = background_end_time hour
      ∧ rules_end_time hour = mkTime ((hour + 1) % 24) 0 0)
    ∧ rules_end_time 23 = mkTime 23 59 59
    ∧ background_end_time 23 = mkTime 0 0 0 := by
  refine ⟨?_, by decide, by decide⟩
  intro hour h
  have h24 : (hour + 1) % 24 = hour + 1 := Nat.mod_eq_of_lt (by omega)
  have hne : (hour == 23) = false := by
    simp only [beq_eq_false_iff_ne, ne_eq]
    omega
  constructor
  · simp [rules_end_time, background_end_time, hne, h24]
  · simp [rules_end_time, hne, h24]

/-- Witness for C7 (amended) at `hour = 5`. -/
theorem claim7_end_time_conventions_witness :
    (rules_end_time 5 = background_end_time 5
      ∧ rules_end_time 5 = mkTime ((5 + 1) % 24) 0 0)
    ∧ rules_end_time 23 = mkTime 23 59 59
    ∧ background_end_time 23 = mkTime 0 0 0 :=
  ⟨claim7_end_time_conventions.1 5 (by decide),
    claim7_end_time_conventions.2.1, claim7_end_time_conventions.2.2⟩

/-! ## Claim C8 -/

/-- **C8** (code bug): the status-update endpoint's own doc comment and the
spec allow exactly `executed`, `failed` and `cancelled`, but the
`valid_statuses` array (schedule.rs:329) also contains `"pending"`, so the
endpoint accepts a request that moves an entry back to `pending`. (It does
reject genuinely unknown values such as `"missed"`.) -/
theorem claim8_status_update_accepts_pending :
    update_schedule_status_valid "pending" = true
    ∧ update_schedule_status_valid "executed" = true
    ∧ update_schedule_status_valid "failed" = true
    ∧ update_schedule_status_valid "cancelled" = true
    ∧ update_schedule_status_valid "missed" = false := by decide

/-! ## Claim C9 -/

/-- **C9** (counterexample): `update_rule` applies requested values with no
range validation — updating a valid rule (`max_hours = 4`,
`min_continuous_hours = 2`) with `max_hours = 25` persists a rule whose
`max_hours` is out of the invariant range `1..24`. -/
theorem claim9_counterexample_update_unvalidated :
    (update_rule_apply ⟨1, 4, none, none, 2, 127, true⟩
        ⟨some 25, none, none, none, none, none⟩).max_hours = 25
    ∧ ¬((update_rule_apply ⟨1, 4, none, none, 2, 127, true⟩
        ⟨some 25, none, none, none, none, none⟩).max_hours ≤ 24) := by decide

/-- **C9** (amended): rule creation validates its constraints — it succeeds
exactly when `1 ≤ max_hours ≤ 24` and `1 ≤ min_continuous_hours ≤
max_hours` (with `min_continuous_hours` defaulting to 1), rejecting
out-of-range values with a BadRequest before the insert and before any
regeneration — and every rule it persists satisfies
`1 ≤ min_continuous_hours ≤ max_hours ≤ 24`; rule update, by contrast,
applies the requested values without validation (see the counterexample). -/
theorem claim9_create_validates_but_update_does_not :
    (∀ body : CreateRuleRequest,
      (create_rule body).isOk = true ↔
        (1 ≤ body.max_hours ∧ body.max_hours ≤ 24
          ∧ 1 ≤ body.min_continuous_hours.getD 1
          ∧ body.min_continuous_hours.getD 1 ≤ body.max_hours))
    ∧ (∀ (body : CreateRuleRequest) (r : Rule),
        create_rule body = Except.ok r →
        1 ≤ r.min_continuous_hours ∧ r.min_continuous_hours ≤ r.max_hours
          ∧ r.max_hours ≤ 24) := by
  constructor
  · intro body
    simp only [create_rule]
    by_cases h1 : (decide (body.max_hours < 1)
        || decide (body.max_hours > 24)) = true
    · rw [if_pos h1]
      simp only [Bool.or_eq_true, decide_eq_true_eq] at h1
      simp only [Except.isOk, Except.toBool]
      constructor
      · intro h; cases h
      · intro h; omega
    · rw [if_neg h1]
      simp only [Bool.or_eq_true, decide_eq_true_eq, not_or, not_lt] at h1
      by_cases h2 : (decide (body.min_continuous_hours.getD 1 < 1)
          || decide (body.min_continuous_hours.getD 1 > body.max_hours)) = true
      · rw [if_pos h2]
        simp only [Bool.or_eq_true, decide_eq_true_eq] at h2
        simp only [Except.isOk, Except.toBool]
        constructor
        · intro h; cases h
        · intro h; omega
      · rw [if_neg h2]
        simp only [Bool.or_eq_true, decide_eq_true_eq, not_or, not_lt] at h2
        simp only [Except.isOk, Except.toBool]
        constructor
        · intro _; omega
        · intro _; trivial
  · intro body r h
    simp only [create_rule] at h
    by_cases h1 : (decide (body.max_hours < 1)
        || decide (body.max_hours > 24)) = true
    · rw [if_pos h1] at h; cases h
    · rw [if_neg h1] at h
      simp only [Bool.or_eq_true, decide_eq_true_eq, not_or, not_lt] at h1
      by_cases h2 : (decide (body.min_continuous_hours.getD 1 < 1)
          || decide (body.min_continuous_hours.getD 1 > body.max_hours)) = true
      · rw [if_pos h2] at h; cases h
      · rw [if_neg h2] at h
        simp only [Bool.or_eq_true, decide_eq_true_eq, not_or, not_lt] at h2
        injection h with h
        subst h
        refine ⟨by simp; omega, by simp; omega, by simp; omega⟩

/-- Witness for C9 (amended): a concrete in-range creation both succeeds
and yields an invariant-satisfying rule. -/
theorem claim9_create_validates_but_update_does_not_witness :
    ((create_rule ⟨4, none, none, some 2, none⟩).isOk = true ↔
      (1 ≤ (4 : Int) ∧ (4 : Int) ≤ 24
        ∧ 1 ≤ (some (2 : Int)).getD 1 ∧ (some (2 : Int)).getD 1 ≤ (4 : Int)))
    ∧ (1 ≤ (⟨0, 4, none, none, 2, 127, true⟩ : Rule).min_continuous_hours
        ∧ (⟨0, 4, none, none, 2, 127, true⟩ : Rule).min_continuous_hours ≤
            (⟨0, 4, none, none, 2, 127, true⟩ : Rule).max_hours
        ∧ (⟨0, 4, none, none, 2, 127, true⟩ : Rule).max_hours ≤ 24) :=
  ⟨claim9_create_validates_but_update_does_not.1 ⟨4, none, none, some 2, none⟩,
    claim9_create_validates_but_update_does_not.2 ⟨4, none, none, some 2, none⟩
      ⟨0, 4, none, none, 2, 127, true⟩ rfl⟩

/-! ## Claim C10 -/

theorem fcmp_isSome {a b : F64} (ha : a ≠ none) (hb : b ≠ none) :
    (fcmp a b).isSome := by
  cases a with
  | none => exact absurd rfl ha
  | some x =>
    cases b with
    | none => exact absurd rfl hb
    | some y => rfl

theorem finsert_isSome {α : Type} (cmp : α → α → Option Ordering) (a : α) :
    ∀ (l : List α), (∀ b ∈ l, (cmp a b).isSome) →
      ∃ l', finsert cmp a l = some l' ∧ ∀ x ∈ l', x = a ∨ x ∈ l
  | [], _ => ⟨[a], rfl, by simp⟩
  | b :: l, hcmp => by
    obtain ⟨o, ho⟩ := Option.isSome_iff_exists.mp (hcmp b (List.mem_cons_self b l))
    cases o with
    | lt =>
      refine ⟨a :: b :: l, by simp [finsert, ho], ?_⟩
      intro x hx
      rcases List.mem_cons.mp hx with rfl | hx'
      · exact Or.inl rfl
      · exact Or.inr hx'
    | eq =>
      refine ⟨a :: b :: l, by simp [finsert, ho], ?_⟩
      intro x hx
      rcases List.mem_cons.mp hx with rfl | hx'
      · exact Or.inl rfl
      · exact Or.inr hx'
    | gt =>
      obtain ⟨l', hl', hmem⟩ := finsert_isSome cmp a l
        (fun x hx => hcmp x (List.mem_cons_of_mem b hx))
      refine ⟨b :: l', by simp [finsert, ho, hl'], ?_⟩
      intro x hx
      rcases List.mem_cons.mp hx with rfl | hx'
      · exact Or.inr (by simp)
      · rcases hmem x hx' with h | h
        · exact Or.inl h
        · exact Or.inr (by simp [h])

theorem fsort_isSome {α : Type} (cmp : α → α → Option Ordering) :
    ∀ (l : List α), (∀ x ∈ l, ∀ y ∈ l, (cmp x y).isSome) →
      ∃ l', fsort cmp l = some l' ∧ ∀ x ∈ l', x ∈ l
  | [], _ => ⟨[], rfl, by simp⟩
  | a :: l, hcmp => by
    obtain ⟨l', hl', hmem⟩ := fsort_isSome cmp l
      (fun x hx y hy =>
        hcmp x (List.mem_cons_of_mem a hx) y (List.mem_cons_of_mem a hy))
    obtain ⟨l'', hl'', hmem''⟩ := finsert_isSome cmp a l'
      (fun b hb => hcmp a (List.mem_cons_self a l) b
        (List.mem_cons_of_mem a (hmem b hb)))
    refine ⟨l'', by simp [fsort, hl', hl''], ?_⟩
    intro x hx
    rcases hmem'' x hx with rfl | hx'
    · simp
    · simp [hmem x hx']

theorem price_mapF_isSome {prices : List HourlyPriceF}
    (hnn : ∀ p ∈ prices, p.price ≠ none) {h : Nat}
    (hmem : h ∈ prices.map (·.hour)) :
    ∃ v, price_mapF prices h = some v ∧ v ≠ none := by
  obtain ⟨p, hp, rfl⟩ := List.mem_map.mp hmem
  have hfind : (prices.reverse.find? (fun q => q.hour == p.hour)).isSome := by
    rw [List.find?_isSome]
    exact ⟨p, by simp [hp], by simp⟩
  obtain ⟨q, hq⟩ := Option.isSome_iff_exists.mp hfind
  refine ⟨q.price, by simp [price_mapF, hq], ?_⟩
  exact hnn q (by simpa using List.mem_of_find?_eq_some hq)

theorem build_blocksF_isSome (pm : Nat → Option F64) (minc : Nat)
    {S : List Nat} (hpm : ∀ h ∈ S, ∃ v, pm h = some v ∧ v ≠ none) :
    ∀ (l block_hours : List Nat) (block_price : F64),
      (∀ h ∈ l, h ∈ S) → block_price ≠ none →
      ∃ bs, build_blocksF pm minc l block_hours block_price = some bs ∧
        ∀ b ∈ bs, b.2 ≠ none ∧ ∀ h ∈ b.1, h ∈ block_hours ∨ h ∈ l
  | [], _, _, _, _ => ⟨[], rfl, by simp⟩
  | curr :: rest, block_hours, block_price, hl, hbp => by
    simp only [build_blocksF]
    split
    · obtain ⟨pc, hpc, hpcnn⟩ := hpm curr (hl curr (List.mem_cons_self curr rest))
      obtain ⟨x, hx⟩ := Option.ne_none_iff_exists'.mp hbp
      obtain ⟨y, hy⟩ := Option.ne_none_iff_exists'.mp hpcnn
      have hbp' : fadd block_price pc = some (x + y) := by
        rw [hx, hy]; rfl
      obtain ⟨bs, hbs, hbsP⟩ := build_blocksF_isSome pm minc hpm rest
        (block_hours ++ [curr]) (fadd block_price pc)
        (fun h hh => hl h (List.mem_cons_of_mem curr hh)) (by simp [hbp'])
      simp only [hpc, hbs]
      have hblocks : ∀ b ∈ bs, b.2 ≠ none ∧
          ∀ h ∈ b.1, h ∈ block_hours ∨ h ∈ curr :: rest := by
        intro b hb
        refine ⟨(hbsP b hb).1, fun h hh => ?_⟩
        rcases (hbsP b hb).2 h hh with h1 | h1
        · rcases List.mem_append.mp h1 with h2 | h2
          · exact Or.inl h2
          · simp only [List.mem_singleton] at h2
            exact Or.inr (by simp [h2])
        · exact Or.inr (List.mem_cons_of_mem curr h1)
      split
      · refine ⟨_, rfl, ?_⟩
        intro b hb
        rcases List.mem_cons.mp hb with rfl | hb'
        · constructor
          · rw [hbp']
            simp [fdiv]
          · intro h hh
            rcases List.mem_append.mp hh with h2 | h2
            · exact Or.inl h2
            · simp only [List.mem_singleton] at h2
              exact Or.inr (by simp [h2])
        · exact hblocks b hb'
      · exact ⟨bs, rfl, hblocks⟩
    · exact ⟨[], rfl, by simp⟩

theorem all_blocksF_isSome (pm : Nat → Option F64) (minc : Nat)
    {S : List Nat} (hpm : ∀ h ∈ S, ∃ v, pm h = some v ∧ v ≠ none) :
    ∀ (l : List Nat), (∀ h ∈ l, h ∈ S) →
      ∃ bs, all_blocksF pm minc l = some bs ∧
        ∀ b ∈ bs, b.2 ≠ none ∧ ∀ h ∈ b.1, h ∈ S
  | [], _ => ⟨[], rfl, by simp⟩
  | h :: rest, hl => by
    simp only [all_blocksF]
    obtain ⟨ph, hph, hphnn⟩ := hpm h (hl h (List.mem_cons_self h rest))
    obtain ⟨bs1, hbs1, hbs1P⟩ := build_blocksF_isSome pm minc hpm rest [h] ph
      (fun x hx => hl x (List.mem_cons_of_mem h hx)) hphnn
    obtain ⟨bs2, hbs2, hbs2P⟩ := all_blocksF_isSome pm minc hpm rest
      (fun x hx => hl x (List.mem_cons_of_mem h hx))
    simp only [hph, hbs1, hbs2]
    refine ⟨bs1 ++ bs2, rfl, ?_⟩
    intro b hb
    rcases List.mem_append.mp hb with hb' | hb'
    · obtain ⟨hnn', hsub⟩ := hbs1P b hb'
      refine ⟨hnn', fun x hx => ?_⟩
      rcases hsub x hx with hx' | hx'
      · simp only [List.mem_singleton] at hx'
        subst hx'
        exact hl x (List.mem_cons_self x rest)
      · exact hl x (List.mem_cons_of_mem h hx')
    · exact hbs2P b hb'

theorem sum_block_prices_isSome (pm : Nat → Option F64) :
    ∀ (hs : List Nat) (acc : F64), (∀ h ∈ hs, (pm h).isSome) →
      (sum_block_prices pm hs acc).isSome
  | [], _, _ => rfl
  | h :: hs, acc, hp => by
    simp only [sum_block_prices]
    obtain ⟨v, hv⟩ := Option.isSome_iff_exists.mp
      (hp h (List.mem_cons_self h hs))
    simp only [hv]
    exact sum_block_prices_isSome pm hs _
      (fun x hx => hp x (List.mem_cons_of_mem h hx))

theorem select_blocksF_isSome (pm : Nat → Option F64) (max_hours : Nat) :
    ∀ (blocks : List (List Nat × F64)) (sel : List Nat) (tot : F64),
      (∀ b ∈ blocks, ∀ h ∈ b.1, (pm h).isSome) →
      (select_blocksF pm max_hours blocks sel tot).isSome
  | [], _, _, _ => rfl
  | (bh, avg) :: rest, sel, tot, hp => by
    simp only [select_blocksF]
    split
    · obtain ⟨tp, htp⟩ := Option.isSome_iff_exists.mp
        (sum_block_prices_isSome pm bh tot
          (fun h hh => hp (bh, avg) (List.mem_cons_self _ rest) h hh))
      simp only [htp]
      split
      · rfl
      · exact select_blocksF_isSome pm max_hours rest _ _
          (fun b hb => hp b (List.mem_cons_of_mem _ hb))
    · exact select_blocksF_isSome pm max_hours rest sel tot
        (fun b hb => hp b (List.mem_cons_of_mem _ hb))

theorem calculate_scattered_hoursF_isSome (prices : List HourlyPriceF)
    (max_hours : Nat) (hnn : ∀ p ∈ prices, p.price ≠ none) :
    (calculate_scattered_hoursF prices max_hours).isSome := by
  obtain ⟨l', hl', -⟩ := fsort_isSome (fun a b => fcmp a.price b.price) prices
    (fun x hx y hy => fcmp_isSome (hnn x hx) (hnn y hy))
  simp only [calculate_scattered_hoursF, hl']
  rfl

theorem calculate_continuous_blocksF_isSome (prices : List HourlyPriceF)
    (max_hours minc : Nat) (hnn : ∀ p ∈ prices, p.price ≠ none) :
    (calculate_continuous_blocksF prices max_hours minc).isSome := by
  simp only [calculate_continuous_blocksF]
  split
  · rfl
  · have hpm : ∀ h ∈ prices.map (·.hour),
        ∃ v, price_mapF prices h = some v ∧ v ≠ none :=
      fun h hh => price_mapF_isSome hnn hh
    obtain ⟨bs, hbs, hbsP⟩ := all_blocksF_isSome (price_mapF prices) minc hpm
      (List.insertionSort (· ≤ ·) (prices.map (·.hour)))
      (fun h hh => (List.mem_insertionSort _).mp hh)
    simp only [hbs]
    split
    · rfl
    · obtain ⟨bs', hbs', hbs'mem⟩ := fsort_isSome (fun a b => fcmp a.2 b.2) bs
        (fun x hx y hy => fcmp_isSome (hbsP x hx).1 (hbsP y hy).1)
      simp only [hbs']
      have hsel : ∀ b ∈ bs', ∀ h ∈ b.1, ((price_mapF prices) h).isSome := by
        intro b hb h hh
        obtain ⟨v, hv, -⟩ := hpm h ((hbsP b (hbs'mem b hb)).2 h hh)
        simp [hv]
      obtain ⟨st, hst⟩ := Option.isSome_iff_exists.mp
        (select_blocksF_isSome (price_mapF prices) max_hours bs' [] (some 0) hsel)
      simp only [hst]
      rfl

/-- **C10**: when no input price is NaN, `calculate_optimal_hours` is total
and never panics — every `partial_cmp(..).unwrap()` in the price sort and
in the block sort, and every `price_map[&hour]` index, is defined, so the
panic-explicit model returns a value. -/
theorem claim10_no_nan_no_panic (prices : List HourlyPriceF)
    (max_hours min_continuous_hours : Int) (tws twe : Option Nat)
    (hnn : ∀ p ∈ prices, p.price ≠ none) :
    (calculate_optimal_hoursF prices max_hours min_continuous_hours
      tws twe).isSome := by
  simp only [calculate_optimal_hoursF]
  split
  · rfl
  · have hnnF : ∀ p ∈ filter_by_time_window prices tws twe, p.price ≠ none :=
      fun p hp => hnn p (mem_filter_by_time_window.mp hp).1
    split
    · exact calculate_scattered_hoursF_isSome _ _ hnnF
    · exact calculate_continuous_blocksF_isSome _ _ _ hnnF

/-- Witness for C10 at a concrete NaN-free input (continuous strategy, so
both sorts and the map lookups are exercised). -/
theorem claim10_no_nan_no_panic_witness :
    (calculate_optimal_hoursF
      [⟨0, some 1⟩, ⟨1, some (1/2)⟩, ⟨2, some 2⟩] 2 2 none none).isSome :=
  claim10_no_nan_no_panic [⟨0, some 1⟩, ⟨1, some (1/2)⟩, ⟨2, some 2⟩] 2 2
    none none (by decide)

end PvpcBackend
